import Mathlib

/-!
Verification of the counter library: a baseline exact counter
(TraditionalCounter.c) and a scalable sloppy counter (ApproximateCounter.c).
All counts in the C source are `uint32_t`, so arithmetic on them is modelled
as natural-number arithmetic reduced modulo 2^32.
-/

/-- Modulus of the C `uint32_t` type used for every count field. -/
def U32 : Nat := 4294967296

/-- State of `tApproximateCounter_instance` (ApproximateCounter.c, lines 10-19):
global count, number of local slots, the per-slot local counts, and the flush
threshold.  Locks are not part of the sequential state. -/
structure tApproximateCounter_instance where
  mGlobal : Nat
  mThreads : Nat
  mLocal : List Nat
  mThreshold : Nat
deriving DecidableEq

/-- State of `tTraditionalCounter_instance` (TraditionalCounter.c, lines 10-15). -/
structure tTraditionalCounter_instance where
  mGlobal : Nat
deriving DecidableEq

/-- `ApproximateCounter_create` (ApproximateCounter.c): zero global, all local
slots zero, threshold and thread count stored. -/
def ApproximateCounter_create (iThreshold iThreads : Nat) : tApproximateCounter_instance :=
  { mGlobal := 0
    mThreads := iThreads
    mLocal := List.replicate iThreads 0
    mThreshold := iThreshold }

/-- The value of `mLocal[iThread]` right after the C line
`aCounterPtr->mLocal[iThread] += iAmount;` (uint32 addition). -/
def incLocalVal (c : tApproximateCounter_instance) (iThread iAmount : Nat) : Nat :=
  (c.mLocal.getD iThread 0 + iAmount) % U32

/-- `ApproximateCounter_increment` (ApproximateCounter.c, lines 190-214), body
after the null check: add to the slot; if the new local value reaches the
threshold, add it to the global count and zero the slot. -/
def ApproximateCounter_increment (c : tApproximateCounter_instance)
    (iThread iAmount : Nat) : tApproximateCounter_instance :=
  if c.mThreshold ≤ incLocalVal c iThread iAmount then
    { c with
        mGlobal := (c.mGlobal + incLocalVal c iThread iAmount) % U32
        mLocal := c.mLocal.set iThread 0 }
  else
    { c with mLocal := c.mLocal.set iThread (incLocalVal c iThread iAmount) }

/-- `ApproximateCounter_flush` (ApproximateCounter.c, lines 163-181), body after
the null check: merge the slot into the global count, zero the slot. -/
def ApproximateCounter_flush (c : tApproximateCounter_instance)
    (iThread : Nat) : tApproximateCounter_instance :=
  { c with
      mGlobal := (c.mGlobal + c.mLocal.getD iThread 0) % U32
      mLocal := c.mLocal.set iThread 0 }

/-- `ApproximateCounter_reset` (ApproximateCounter.c, lines 125-155), body after
the null check: zero the global count and every local slot. -/
def ApproximateCounter_reset (c : tApproximateCounter_instance) :
    tApproximateCounter_instance :=
  { c with mGlobal := 0, mLocal := List.replicate c.mThreads 0 }

/-- `ApproximateCounter_get` (ApproximateCounter.c, lines 224-239), body after
the null check: the value written to `*oCount` is `mGlobal` alone. -/
def ApproximateCounter_get (c : tApproximateCounter_instance) : Nat :=
  c.mGlobal

/-- `TraditionalCounter_create` (TraditionalCounter.c): zero global count. -/
def TraditionalCounter_create : tTraditionalCounter_instance :=
  { mGlobal := 0 }

/-- `TraditionalCounter_increment` (TraditionalCounter.c, lines 115-131), body
after the null check; `iThread` is ignored. -/
def TraditionalCounter_increment (c : tTraditionalCounter_instance)
    (iThread iAmount : Nat) : tTraditionalCounter_instance :=
  { mGlobal := (c.mGlobal + iAmount) % U32 }

/-- `TraditionalCounter_reset` (TraditionalCounter.c, lines 79-93), body after
the null check. -/
def TraditionalCounter_reset (c : tTraditionalCounter_instance) :
    tTraditionalCounter_instance :=
  { mGlobal := 0 }

/-- `TraditionalCounter_get` (TraditionalCounter.c, lines 139-154), body after
the null check: the value written to `*oCount` is `mGlobal`. -/
def TraditionalCounter_get (c : tTraditionalCounter_instance) : Nat :=
  c.mGlobal

/-! ### Null-checked entry points

Every C entry point begins with `if (ioInstancePtr == NULL) return;`.  The
instance pointer is modelled as `Option`; `none` is the null pointer.  `get`
additionally carries the caller's output variable `*oCount`, returned
unchanged when the instance is null (the C function returns before writing). -/

/-- `ApproximateCounter_destroy` (ApproximateCounter.c, lines 90-118): frees the
instance; returns immediately on null. -/
def ApproximateCounter_destroy_c (inst : Option tApproximateCounter_instance) :
    Option tApproximateCounter_instance :=
  match inst with
  | none => none
  | some _ => none

/-- Null-checked `ApproximateCounter_reset` (lines 131-134 return on null). -/
def ApproximateCounter_reset_c (inst : Option tApproximateCounter_instance) :
    Option tApproximateCounter_instance :=
  match inst with
  | none => none
  | some c => some (ApproximateCounter_reset c)

/-- Null-checked `ApproximateCounter_flush` (lines 168-171 return on null). -/
def ApproximateCounter_flush_c (inst : Option tApproximateCounter_instance)
    (iThread : Nat) : Option tApproximateCounter_instance :=
  match inst with
  | none => none
  | some c => some (ApproximateCounter_flush c iThread)

/-- Null-checked `ApproximateCounter_increment` (lines 197-200 return on null). -/
def ApproximateCounter_increment_c (inst : Option tApproximateCounter_instance)
    (iThread iAmount : Nat) : Option tApproximateCounter_instance :=
  match inst with
  | none => none
  | some c => some (ApproximateCounter_increment c iThread iAmount)

/-- Null-checked `ApproximateCounter_get` (lines 229-232 return on null before
writing `*oCount`): returns the instance state and the value of the caller's
output variable after the call. -/
def ApproximateCounter_get_c (inst : Option tApproximateCounter_instance)
    (oCount : Nat) : Option tApproximateCounter_instance × Nat :=
  match inst with
  | none => (none, oCount)
  | some c => (some c, ApproximateCounter_get c)

/-- `TraditionalCounter_destroy` (TraditionalCounter.c, lines 57-72): frees the
instance; returns immediately on null. -/
def TraditionalCounter_destroy_c (inst : Option tTraditionalCounter_instance) :
    Option tTraditionalCounter_instance :=
  match inst with
  | none => none
  | some _ => none

/-- Null-checked `TraditionalCounter_reset`. -/
def TraditionalCounter_reset_c (inst : Option tTraditionalCounter_instance) :
    Option tTraditionalCounter_instance :=
  match inst with
  | none => none
  | some c => some (TraditionalCounter_reset c)

/-- `TraditionalCounter_flush` (TraditionalCounter.c, lines 103-106): a no-op
for every argument, null or not. -/
def TraditionalCounter_flush_c (inst : Option tTraditionalCounter_instance)
    (iThread : Nat) : Option tTraditionalCounter_instance :=
  inst

/-- Null-checked `TraditionalCounter_increment`. -/
def TraditionalCounter_increment_c (inst : Option tTraditionalCounter_instance)
    (iThread iAmount : Nat) : Option tTraditionalCounter_instance :=
  match inst with
  | none => none
  | some c => some (TraditionalCounter_increment c iThread iAmount)

/-- Null-checked `TraditionalCounter_get`: returns the instance state and the
caller's output variable after the call (unwritten when null). -/
def TraditionalCounter_get_c (inst : Option tTraditionalCounter_instance)
    (oCount : Nat) : Option tTraditionalCounter_instance × Nat :=
  match inst with
  | none => (none, oCount)
  | some c => (some c, TraditionalCounter_get c)

/-! ### Sequences of operations -/

/-- One call of the counter contract's mutating operations. -/
inductive CounterOp where
  | increment (iThread iAmount : Nat)
  | flush (iThread : Nat)
  | reset
deriving DecidableEq

/-- Slot validity of one operation: increment and flush must name a slot in
`[0, threads)` (spec data model); reset takes no slot. -/
def CounterOp.slotOkB (n : Nat) : CounterOp → Bool
  | CounterOp.increment t _ => t < n
  | CounterOp.flush _ => true
  | CounterOp.reset => true

/-- One step of the sloppy counter under a contract call. -/
def ApproximateCounter_step (c : tApproximateCounter_instance) :
    CounterOp → tApproximateCounter_instance
  | CounterOp.increment t a => ApproximateCounter_increment c t a
  | CounterOp.flush t => ApproximateCounter_flush c t
  | CounterOp.reset => ApproximateCounter_reset c

/-- Run a sequence of contract calls on the sloppy counter. -/
def ApproximateCounter_run (c : tApproximateCounter_instance)
    (ops : List CounterOp) : tApproximateCounter_instance :=
  ops.foldl ApproximateCounter_step c

/-- One step of the exact counter under a contract call (`flush` is a no-op). -/
def TraditionalCounter_step (c : tTraditionalCounter_instance) :
    CounterOp → tTraditionalCounter_instance
  | CounterOp.increment t a => TraditionalCounter_increment c t a
  | CounterOp.flush _ => c
  | CounterOp.reset => TraditionalCounter_reset c

/-- Run a sequence of contract calls on the exact counter. -/
def TraditionalCounter_run (c : tTraditionalCounter_instance)
    (ops : List CounterOp) : tTraditionalCounter_instance :=
  ops.foldl TraditionalCounter_step c

/-- Exact sum of all `amount` arguments passed to `increment` since the last
`reset` in `ops`, continuing from a sum `s` accumulated before `ops`. -/
def sumSinceResetFrom (s : Nat) (ops : List CounterOp) : Nat :=
  ops.foldl
    (fun acc op =>
      match op with
      | CounterOp.increment _ a => acc + a
      | CounterOp.flush _ => acc
      | CounterOp.reset => 0)
    s

/-- Exact sum of all `amount` arguments passed to `increment` since the last
`reset` (or since creation). -/
def sumSinceReset (ops : List CounterOp) : Nat :=
  sumSinceResetFrom 0 ops

/-- A pure increment workload: a list of `(slot, amount)` pairs, no flush and
no reset. -/
def incsToOps (incs : List (Nat × Nat)) : List CounterOp :=
  incs.map (fun p => CounterOp.increment p.1 p.2)

/-- Exact total of an increment workload. -/
def sumAmounts (incs : List (Nat × Nat)) : Nat :=
  (incs.map Prod.snd).sum

/-! ### List helper lemmas -/

/-- Setting a slot and reading any entry with default 0: summed contents shift
by the difference at the written slot. -/
theorem sum_set_getD (l : List Nat) (i v : Nat) (h : i < l.length) :
    (l.set i v).sum + l.getD i 0 = l.sum + v := by
  induction l generalizing i with
  | nil => simp at h
  | cons x xs ih =>
    cases i with
    | zero => simp [List.set, List.getD]; omega
    | succ j =>
      simp only [List.set, List.sum_cons, List.getD_cons_succ]
      have hj : j < xs.length := by simpa using h
      have := ih j hj
      omega

/-- Any defaulted read is bounded by the sum of a list of naturals. -/
theorem getD_le_sum (l : List Nat) (i : Nat) : l.getD i 0 ≤ l.sum := by
  induction l generalizing i with
  | nil => simp [List.getD]
  | cons x xs ih =>
    cases i with
    | zero => simp
    | succ j =>
      have := ih j
      simp only [List.getD_cons_succ, List.sum_cons]
      omega

/-- Membership after a set: the element is the written value or was there. -/
theorem mem_set_cases (l : List Nat) (i v x : Nat) (h : x ∈ l.set i v) :
    x = v ∨ x ∈ l := by
  induction l generalizing i with
  | nil => simp [List.set] at h
  | cons y ys ih =>
    cases i with
    | zero =>
      simp only [List.set, List.mem_cons] at h
      rcases h with h | h
      · exact Or.inl h
      · exact Or.inr (List.mem_cons_of_mem _ h)
    | succ j =>
      simp only [List.set, List.mem_cons] at h
      rcases h with h | h
      · exact Or.inr (by simp [h])
      · rcases ih j h with h2 | h2
        · exact Or.inl h2
        · exact Or.inr (List.mem_cons_of_mem _ h2)

/-- Reading the slot just written, inside bounds. -/
theorem getD_set_self (l : List Nat) (i v : Nat) (h : i < l.length) :
    (l.set i v).getD i 0 = v := by
  induction l generalizing i with
  | nil => simp at h
  | cons x xs ih =>
    cases i with
    | zero => simp [List.set]
    | succ j =>
      simp only [List.set, List.getD_cons_succ]
      exact ih j (by simpa using h)

/-- Reading another slot after a write leaves it unchanged. -/
theorem getD_set_other (l : List Nat) (i j v : Nat) (h : j ≠ i) :
    (l.set i v).getD j 0 = l.getD j 0 := by
  induction l generalizing i j with
  | nil => simp [List.set]
  | cons x xs ih =>
    cases i with
    | zero =>
      cases j with
      | zero => exact absurd rfl h
      | succ k => simp [List.set]
    | succ i2 =>
      cases j with
      | zero => simp [List.set]
      | succ k =>
        simp only [List.set, List.getD_cons_succ]
        exact ih i2 k (fun hk => h (by simp [hk]))

/-- Writing 0 into an all-zero list changes nothing. -/
theorem set_replicate_zero (n i : Nat) :
    (List.replicate n (0 : Nat)).set i 0 = List.replicate n 0 := by
  induction n generalizing i with
  | zero => simp
  | succ m ih =>
    cases i with
    | zero => simp [List.replicate, List.set]
    | succ j => simp [List.replicate, List.set, ih j]

/-- Reading any slot of an all-zero list yields 0. -/
theorem getD_replicate_zero (n i : Nat) :
    (List.replicate n (0 : Nat)).getD i 0 = 0 := by
  induction n generalizing i with
  | zero => simp [List.getD]
  | succ m ih =>
    cases i with
    | zero => simp [List.replicate]
    | succ j => simp [List.replicate, List.getD_cons_succ, ih j]

/-- The sum of an all-zero list is 0. -/
theorem sum_replicate_zero (n : Nat) : (List.replicate n (0 : Nat)).sum = 0 := by
  induction n with
  | zero => simp
  | succ m ih => simp [List.replicate, ih]

/-- A list of naturals each at most `b` sums to at most `length * b`. -/
theorem sum_le_length_mul (l : List Nat) (b : Nat) (h : ∀ x ∈ l, x ≤ b) :
    l.sum ≤ l.length * b := by
  induction l with
  | nil => simp
  | cons x xs ih =>
    have hx : x ≤ b := h x (List.mem_cons_self x xs)
    have hxs : xs.sum ≤ xs.length * b := ih (fun y hy => h y (List.mem_cons_of_mem _ hy))
    simp only [List.sum_cons, List.length_cons]
    calc x + xs.sum ≤ b + xs.length * b := by omega
    _ = (xs.length + 1) * b := by ring

/-- Setting a slot to zero removes exactly the defaulted read of that slot from
the sum (holds also out of range, where both the write and the read are void). -/
theorem sum_set_zero_getD (l : List Nat) (i : Nat) :
    (l.set i 0).sum + l.getD i 0 = l.sum := by
  induction l generalizing i with
  | nil => simp [List.set, List.getD]
  | cons x xs ih =>
    cases i with
    | zero => simp [List.set]; omega
    | succ j =>
      simp only [List.set, List.sum_cons, List.getD_cons_succ]
      have := ih j
      omega

/-! ### The sloppy-accounting invariant -/

/-- Sequential invariant of a sloppy-counter state relative to `s`, the exact
sum of all increment amounts applied since the last reset: the local array has
one slot per thread; `global + Σ local` equals `s` modulo 2^32, and exactly
whenever `s` has not yet overflowed uint32; every un-flushed local count is at
most `threshold - 1`; and every count fits in uint32. -/
def SloppyInv (c : tApproximateCounter_instance) (s : Nat) : Prop :=
  c.mLocal.length = c.mThreads ∧
  (c.mGlobal + c.mLocal.sum) % U32 = s % U32 ∧
  (∀ x ∈ c.mLocal, x ≤ c.mThreshold - 1) ∧
  (s < U32 → c.mGlobal + c.mLocal.sum = s) ∧
  c.mGlobal < U32 ∧
  (∀ x ∈ c.mLocal, x < U32)

theorem sloppyInv_create (iThreshold iThreads : Nat) :
    SloppyInv (ApproximateCounter_create iThreshold iThreads) 0 := by
  refine ⟨?_, ?_, ?_, ?_, ?_, ?_⟩
  · simp [ApproximateCounter_create]
  · simp [ApproximateCounter_create, sum_replicate_zero]
  · intro x hx
    simp only [ApproximateCounter_create] at hx
    have := List.eq_of_mem_replicate hx
    omega
  · intro _
    simp [ApproximateCounter_create, sum_replicate_zero]
  · simp [ApproximateCounter_create, U32]
  · intro x hx
    simp only [ApproximateCounter_create] at hx
    have := List.eq_of_mem_replicate hx
    simp [this, U32]

theorem increment_eq_of_flush (c : tApproximateCounter_instance) (t a : Nat)
    (h : c.mThreshold ≤ incLocalVal c t a) :
    ApproximateCounter_increment c t a =
      { c with
          mGlobal := (c.mGlobal + incLocalVal c t a) % U32
          mLocal := c.mLocal.set t 0 } := by
  unfold ApproximateCounter_increment
  rw [if_pos h]

theorem increment_eq_of_noflush (c : tApproximateCounter_instance) (t a : Nat)
    (h : ¬ c.mThreshold ≤ incLocalVal c t a) :
    ApproximateCounter_increment c t a =
      { c with mLocal := c.mLocal.set t (incLocalVal c t a) } := by
  unfold ApproximateCounter_increment
  rw [if_neg h]

theorem sloppyInv_increment (c : tApproximateCounter_instance) (s t a : Nat)
    (h : SloppyInv c s) (ht : t < c.mThreads) :
    SloppyInv (ApproximateCounter_increment c t a) (s + a) := by
  obtain ⟨hlen, hmod, hbound, hexact, hg, hloc⟩ := h
  have htl : t < c.mLocal.length := by rw [hlen]; exact ht
  have hloc_le : c.mLocal.getD t 0 ≤ c.mLocal.sum := getD_le_sum _ _
  have hl_def : incLocalVal c t a = (c.mLocal.getD t 0 + a) % U32 := rfl
  by_cases hcase : c.mThreshold ≤ incLocalVal c t a
  · rw [increment_eq_of_flush c t a hcase]
    have hss : (c.mLocal.set t 0).sum + c.mLocal.getD t 0 = c.mLocal.sum :=
      sum_set_zero_getD _ _
    refine ⟨by simpa using hlen, ?_, ?_, ?_, ?_, ?_⟩
    · simp only [hl_def, U32] at *
      omega
    · intro x hx
      simp only at hx
      rcases mem_set_cases _ _ _ _ hx with rfl | hx2
      · omega
      · exact hbound x hx2
    · intro hsa
      have hs : s < U32 := by simp only [U32] at *; omega
      have he := hexact hs
      simp only [hl_def, U32] at *
      omega
    · simp only [hl_def, U32]
      omega
    · intro x hx
      simp only at hx
      rcases mem_set_cases _ _ _ _ hx with rfl | hx2
      · simp [U32]
      · exact hloc x hx2
  · rw [increment_eq_of_noflush c t a hcase]
    have hss : (c.mLocal.set t (incLocalVal c t a)).sum + c.mLocal.getD t 0 =
        c.mLocal.sum + incLocalVal c t a :=
      sum_set_getD _ _ _ htl
    refine ⟨by simpa using hlen, ?_, ?_, ?_, ?_, ?_⟩
    · simp only [hl_def, U32] at *
      omega
    · intro x hx
      simp only at hx
      rcases mem_set_cases _ _ _ _ hx with rfl | hx2
      · simp only [hl_def, U32] at hcase ⊢
        omega
      · exact hbound x hx2
    · intro hsa
      have hs : s < U32 := by simp only [U32] at *; omega
      have he := hexact hs
      simp only [hl_def, U32] at *
      omega
    · exact hg
    · intro x hx
      simp only at hx
      rcases mem_set_cases _ _ _ _ hx with rfl | hx2
      · simp only [hl_def, U32]
        omega
      · exact hloc x hx2

theorem sloppyInv_flush (c : tApproximateCounter_instance) (s t : Nat)
    (h : SloppyInv c s) :
    SloppyInv (ApproximateCounter_flush c t) s := by
  obtain ⟨hlen, hmod, hbound, hexact, hg, hloc⟩ := h
  have hloc_le : c.mLocal.getD t 0 ≤ c.mLocal.sum := getD_le_sum _ _
  have hss : (c.mLocal.set t 0).sum + c.mLocal.getD t 0 = c.mLocal.sum :=
    sum_set_zero_getD _ _
  refine ⟨by simp only [ApproximateCounter_flush]; simpa using hlen, ?_, ?_, ?_, ?_, ?_⟩
  · simp only [ApproximateCounter_flush, U32] at *
    omega
  · intro x hx
    simp only [ApproximateCounter_flush] at hx
    rcases mem_set_cases _ _ _ _ hx with rfl | hx2
    · simp only [ApproximateCounter_flush]
      omega
    · simpa [ApproximateCounter_flush] using hbound x hx2
  · intro hs
    have he := hexact hs
    simp only [ApproximateCounter_flush, U32] at *
    omega
  · simp only [ApproximateCounter_flush, U32]
    omega
  · intro x hx
    simp only [ApproximateCounter_flush] at hx
    rcases mem_set_cases _ _ _ _ hx with rfl | hx2
    · simp [U32]
    · exact hloc x hx2

theorem sloppyInv_reset (c : tApproximateCounter_instance) :
    SloppyInv (ApproximateCounter_reset c) 0 := by
  refine ⟨?_, ?_, ?_, ?_, ?_, ?_⟩
  · simp [ApproximateCounter_reset]
  · simp [ApproximateCounter_reset, sum_replicate_zero]
  · intro x hx
    simp only [ApproximateCounter_reset] at hx
    have := List.eq_of_mem_replicate hx
    omega
  · intro _
    simp [ApproximateCounter_reset, sum_replicate_zero]
  · simp [ApproximateCounter_reset, U32]
  · intro x hx
    simp only [ApproximateCounter_reset] at hx
    have := List.eq_of_mem_replicate hx
    simp [this, U32]

theorem step_mThreads (c : tApproximateCounter_instance) (op : CounterOp) :
    (ApproximateCounter_step c op).mThreads = c.mThreads := by
  cases op with
  | increment t a =>
    simp only [ApproximateCounter_step, ApproximateCounter_increment]
    split <;> rfl
  | flush t => rfl
  | reset => rfl

theorem step_mThreshold (c : tApproximateCounter_instance) (op : CounterOp) :
    (ApproximateCounter_step c op).mThreshold = c.mThreshold := by
  cases op with
  | increment t a =>
    simp only [ApproximateCounter_step, ApproximateCounter_increment]
    split <;> rfl
  | flush t => rfl
  | reset => rfl

theorem run_mThreads (ops : List CounterOp) :
    ∀ c : tApproximateCounter_instance,
      (ApproximateCounter_run c ops).mThreads = c.mThreads := by
  induction ops with
  | nil => intro c; rfl
  | cons op rest ih =>
    intro c
    have h1 : ApproximateCounter_run c (op :: rest) =
        ApproximateCounter_run (ApproximateCounter_step c op) rest := rfl
    rw [h1, ih, step_mThreads]

theorem run_mThreshold (ops : List CounterOp) :
    ∀ c : tApproximateCounter_instance,
      (ApproximateCounter_run c ops).mThreshold = c.mThreshold := by
  induction ops with
  | nil => intro c; rfl
  | cons op rest ih =>
    intro c
    have h1 : ApproximateCounter_run c (op :: rest) =
        ApproximateCounter_run (ApproximateCounter_step c op) rest := rfl
    rw [h1, ih, step_mThreshold]

/-- The invariant is preserved by every sequence of contract calls whose
increments name valid slots. -/
theorem sloppyInv_run (ops : List CounterOp) :
    ∀ (c : tApproximateCounter_instance) (s : Nat),
      SloppyInv c s →
      (∀ op ∈ ops, CounterOp.slotOkB c.mThreads op = true) →
      SloppyInv (ApproximateCounter_run c ops) (sumSinceResetFrom s ops) := by
  induction ops with
  | nil => intro c s h _; exact h
  | cons op rest ih =>
    intro c s h hok
    have hokop := hok op (List.mem_cons_self op rest)
    have hokrest : ∀ op2 ∈ rest, CounterOp.slotOkB (ApproximateCounter_step c op).mThreads op2 = true := by
      intro op2 h2
      rw [step_mThreads]
      exact hok op2 (List.mem_cons_of_mem _ h2)
    have hrun : ApproximateCounter_run c (op :: rest) =
        ApproximateCounter_run (ApproximateCounter_step c op) rest := rfl
    rw [hrun]
    cases op with
    | increment t a =>
      have ht : t < c.mThreads := by
        simpa [CounterOp.slotOkB] using hokop
      have hsum : sumSinceResetFrom s (CounterOp.increment t a :: rest) =
          sumSinceResetFrom (s + a) rest := rfl
      rw [hsum]
      exact ih _ _ (sloppyInv_increment c s t a h ht) hokrest
    | flush t =>
      have hsum : sumSinceResetFrom s (CounterOp.flush t :: rest) =
          sumSinceResetFrom s rest := rfl
      rw [hsum]
      exact ih _ _ (sloppyInv_flush c s t h) hokrest
    | reset =>
      have hsum : sumSinceResetFrom s (CounterOp.reset :: rest) =
          sumSinceResetFrom 0 rest := rfl
      rw [hsum]
      exact ih _ _ (sloppyInv_reset c) hokrest

/-! ### The exact counter's invariant -/

/-- Sequential invariant of the exact counter relative to the sum `s` of all
increment amounts since the last reset. -/
def ExactInv (c : tTraditionalCounter_instance) (s : Nat) : Prop :=
  c.mGlobal % U32 = s % U32 ∧ (s < U32 → c.mGlobal = s) ∧ c.mGlobal < U32

theorem exactInv_create : ExactInv TraditionalCounter_create 0 := by
  refine ⟨rfl, fun _ => rfl, ?_⟩
  simp [TraditionalCounter_create, U32]

theorem exactInv_step (c : tTraditionalCounter_instance) (s : Nat) (op : CounterOp)
    (h : ExactInv c s) :
    ExactInv (TraditionalCounter_step c op)
      (sumSinceResetFrom s [op]) := by
  obtain ⟨hmod, hexact, hlt⟩ := h
  cases op with
  | increment t a =>
    refine ⟨?_, ?_, ?_⟩ <;>
      simp only [TraditionalCounter_step, TraditionalCounter_increment,
        sumSinceResetFrom, List.foldl, U32] at *
    · omega
    · omega
    · omega
  | flush t => exact ⟨hmod, hexact, hlt⟩
  | reset =>
    refine ⟨rfl, fun _ => rfl, ?_⟩
    simp [TraditionalCounter_step, TraditionalCounter_reset, U32]

theorem exactInv_run (ops : List CounterOp) :
    ∀ (c : tTraditionalCounter_instance) (s : Nat),
      ExactInv c s →
      ExactInv (TraditionalCounter_run c ops) (sumSinceResetFrom s ops) := by
  induction ops with
  | nil => intro c s h; exact h
  | cons op rest ih =>
    intro c s h
    have hrun : TraditionalCounter_run c (op :: rest) =
        TraditionalCounter_run (TraditionalCounter_step c op) rest := rfl
    have hsum : sumSinceResetFrom s (op :: rest) =
        sumSinceResetFrom (sumSinceResetFrom s [op]) rest := by
      cases op <;> rfl
    rw [hrun, hsum]
    exact ih _ _ (exactInv_step c s op h)

/-! ### Lock acquire/release traces

Each sloppy-counter operation is lock-annotated in the source; its sequence of
`pthread_mutex_lock`/`pthread_mutex_unlock` calls is modelled as a list of
events over the global lock `mGlock` and the per-slot locks `mLlock[i]`. -/

/-- A lock of a sloppy-counter instance. -/
inductive LockRef where
  | glock
  | llock (slot : Nat)
deriving DecidableEq

/-- One lock acquire or release event. -/
inductive LockEv where
  | acq (l : LockRef)
  | rel (l : LockRef)
deriving DecidableEq

/-- Lock trace of `ApproximateCounter_increment` (lines 204-213): take the
slot's lock; when the incremented local value reaches the threshold, take and
release the global lock inside; release the slot's lock. -/
def ApproximateCounter_incrementTrace (c : tApproximateCounter_instance)
    (iThread iAmount : Nat) : List LockEv :=
  LockEv.acq (LockRef.llock iThread) ::
    ((if c.mThreshold ≤ incLocalVal c iThread iAmount then
        [LockEv.acq LockRef.glock, LockEv.rel LockRef.glock]
      else []) ++ [LockEv.rel (LockRef.llock iThread)])

/-- Lock trace of `ApproximateCounter_flush` (lines 175-180): slot lock, global
lock, release global, release slot. -/
def ApproximateCounter_flushTrace (iThread : Nat) : List LockEv :=
  [LockEv.acq (LockRef.llock iThread), LockEv.acq LockRef.glock,
   LockEv.rel LockRef.glock, LockEv.rel (LockRef.llock iThread)]

/-- Lock trace of `ApproximateCounter_reset` (lines 141-154): the global lock
first, then every slot lock in ascending order; the slot locks are released in
ascending order, and the global lock is released last. -/
def ApproximateCounter_resetTrace (c : tApproximateCounter_instance) : List LockEv :=
  LockEv.acq LockRef.glock ::
    ((List.range c.mThreads).map (fun i => LockEv.acq (LockRef.llock i)) ++
     (List.range c.mThreads).map (fun i => LockEv.rel (LockRef.llock i)) ++
     [LockEv.rel LockRef.glock])

/-- Scans a trace with `held` recording whether the global lock is currently
held; true when some local lock is acquired at a point where the global lock
is held (i.e. the global lock was taken first and is still held). -/
def acquiresLocalWhileGlobalHeld : Bool → List LockEv → Bool
  | _, [] => false
  | _, LockEv.acq LockRef.glock :: rest => acquiresLocalWhileGlobalHeld true rest
  | _, LockEv.rel LockRef.glock :: rest => acquiresLocalWhileGlobalHeld false rest
  | held, LockEv.acq (LockRef.llock _) :: rest =>
      held || acquiresLocalWhileGlobalHeld held rest
  | held, LockEv.rel (LockRef.llock _) :: rest => acquiresLocalWhileGlobalHeld held rest

/-- True when some local lock is released at a point where the global lock is
held (i.e. the local lock is not released last among the two). -/
def releasesLocalWhileGlobalHeld : Bool → List LockEv → Bool
  | _, [] => false
  | _, LockEv.acq LockRef.glock :: rest => releasesLocalWhileGlobalHeld true rest
  | _, LockEv.rel LockRef.glock :: rest => releasesLocalWhileGlobalHeld false rest
  | held, LockEv.acq (LockRef.llock _) :: rest => releasesLocalWhileGlobalHeld held rest
  | held, LockEv.rel (LockRef.llock _) :: rest =>
      held || releasesLocalWhileGlobalHeld held rest

/-- An operation obeys the local-first discipline when it never acquires a
local lock with the global lock held and never releases a local lock with the
global lock held. -/
def localFirstDiscipline (tr : List LockEv) : Prop :=
  acquiresLocalWhileGlobalHeld false tr = false ∧
  releasesLocalWhileGlobalHeld false tr = false

/-! ### Increment-only workloads -/

/-- Run an increment-only workload on the sloppy counter. -/
theorem run_incsToOps_cons (c : tApproximateCounter_instance) (p : Nat × Nat)
    (incs : List (Nat × Nat)) :
    ApproximateCounter_run c (incsToOps (p :: incs)) =
      ApproximateCounter_run (ApproximateCounter_increment c p.1 p.2) (incsToOps incs) := rfl

theorem sumSinceReset_incsToOps (incs : List (Nat × Nat)) :
    sumSinceReset (incsToOps incs) = sumAmounts incs := by
  have key : ∀ (l : List (Nat × Nat)) (s : Nat),
      sumSinceResetFrom s (incsToOps l) = s + sumAmounts l := by
    intro l
    induction l with
    | nil => intro s; simp [incsToOps, sumSinceResetFrom, sumAmounts]
    | cons p rest ih =>
      intro s
      have h1 : sumSinceResetFrom s (incsToOps (p :: rest)) =
          sumSinceResetFrom (s + p.2) (incsToOps rest) := rfl
      have h2 : sumAmounts (p :: rest) = p.2 + sumAmounts rest := by
        simp [sumAmounts]
      rw [h1, ih, h2]
      omega
  simpa using key incs 0

theorem slotOkB_incsToOps (n : Nat) (incs : List (Nat × Nat))
    (h : ∀ p ∈ incs, p.1 < n) :
    ∀ op ∈ incsToOps incs, CounterOp.slotOkB n op = true := by
  intro op hop
  simp only [incsToOps, List.mem_map] at hop
  obtain ⟨p, hp, rfl⟩ := hop
  simp [CounterOp.slotOkB]
  exact h p hp

theorem incrementTrace_localFirst (c : tApproximateCounter_instance) (t a : Nat) :
    localFirstDiscipline (ApproximateCounter_incrementTrace c t a) := by
  unfold localFirstDiscipline ApproximateCounter_incrementTrace
  by_cases h : c.mThreshold ≤ incLocalVal c t a
  · rw [if_pos h]
    exact ⟨rfl, rfl⟩
  · rw [if_neg h]
    exact ⟨rfl, rfl⟩

theorem flushTrace_localFirst (t : Nat) :
    localFirstDiscipline (ApproximateCounter_flushTrace t) :=
  ⟨rfl, rfl⟩

/-- True when some local lock is acquired at a point where the global lock is
NOT held. -/
def acquiresLocalWhileGlobalFree : Bool → List LockEv → Bool
  | _, [] => false
  | _, LockEv.acq LockRef.glock :: rest => acquiresLocalWhileGlobalFree true rest
  | _, LockEv.rel LockRef.glock :: rest => acquiresLocalWhileGlobalFree false rest
  | held, LockEv.acq (LockRef.llock _) :: rest =>
      !held || acquiresLocalWhileGlobalFree held rest
  | held, LockEv.rel (LockRef.llock _) :: rest => acquiresLocalWhileGlobalFree held rest

theorem acquiresLocalWhileGlobalFree_acqList (l : List Nat) (rest : List LockEv) :
    acquiresLocalWhileGlobalFree true
        ((l.map fun i => LockEv.acq (LockRef.llock i)) ++ rest) =
      acquiresLocalWhileGlobalFree true rest := by
  induction l with
  | nil => rfl
  | cons x xs ih =>
    simp only [List.map_cons, List.cons_append]
    exact ih

theorem acquiresLocalWhileGlobalFree_relList (l : List Nat) (rest : List LockEv) :
    acquiresLocalWhileGlobalFree true
        ((l.map fun i => LockEv.rel (LockRef.llock i)) ++ rest) =
      acquiresLocalWhileGlobalFree true rest := by
  induction l with
  | nil => rfl
  | cons x xs ih =>
    simp only [List.map_cons, List.cons_append]
    exact ih

/-- In the reset trace every local lock is acquired with the global lock held:
the global lock comes first. -/
theorem acqFree_cons_acqGlock (L : List LockEv) :
    acquiresLocalWhileGlobalFree false (LockEv.acq LockRef.glock :: L) =
      acquiresLocalWhileGlobalFree true L := rfl

theorem resetTrace_globalFirst (c : tApproximateCounter_instance) :
    acquiresLocalWhileGlobalFree false (ApproximateCounter_resetTrace c) = false := by
  unfold ApproximateCounter_resetTrace
  rw [acqFree_cons_acqGlock, List.append_assoc, acquiresLocalWhileGlobalFree_acqList,
    acquiresLocalWhileGlobalFree_relList]
  rfl

/-- The first lock event of the reset trace takes the global lock. -/
theorem resetTrace_head (c : tApproximateCounter_instance) :
    (ApproximateCounter_resetTrace c).head? = some (LockEv.acq LockRef.glock) := rfl

/-- The last lock event of the reset trace releases the global lock. -/
theorem resetTrace_last (c : tApproximateCounter_instance) :
    (ApproximateCounter_resetTrace c).getLast? = some (LockEv.rel LockRef.glock) := by
  have h1 : ApproximateCounter_resetTrace c =
      (LockEv.acq LockRef.glock ::
        ((List.range c.mThreads).map (fun i => LockEv.acq (LockRef.llock i)) ++
         (List.range c.mThreads).map (fun i => LockEv.rel (LockRef.llock i)))) ++
        [LockEv.rel LockRef.glock] := by
    simp [ApproximateCounter_resetTrace]
  rw [h1, List.getLast?_concat]

/-! ### Threshold one degenerates to the exact counter -/

theorem threshold_one_run (incs : List (Nat × Nat)) :
    ∀ (n : Nat) (sc : tApproximateCounter_instance) (tc : tTraditionalCounter_instance),
      sc.mThreshold = 1 →
      sc.mLocal = List.replicate n 0 →
      sc.mGlobal = tc.mGlobal →
      sc.mGlobal < U32 →
      (ApproximateCounter_run sc (incsToOps incs)).mGlobal =
          (TraditionalCounter_run tc (incsToOps incs)).mGlobal ∧
        (ApproximateCounter_run sc (incsToOps incs)).mLocal = List.replicate n 0 := by
  induction incs with
  | nil => intro n sc tc h1 h2 h3 _; exact ⟨h3, h2⟩
  | cons p rest ih =>
    intro n sc tc h1 h2 h3 h4
    rw [run_incsToOps_cons]
    have htrun : TraditionalCounter_run tc (incsToOps (p :: rest)) =
        TraditionalCounter_run (TraditionalCounter_increment tc p.1 p.2) (incsToOps rest) := rfl
    rw [htrun]
    have hloc : sc.mLocal.getD p.1 0 = 0 := by
      rw [h2]; exact getD_replicate_zero n p.1
    have hl : incLocalVal sc p.1 p.2 = p.2 % U32 := by
      unfold incLocalVal
      rw [hloc, Nat.zero_add]
    by_cases hc : sc.mThreshold ≤ incLocalVal sc p.1 p.2
    · rw [increment_eq_of_flush sc p.1 p.2 hc]
      apply ih n
      · exact h1
      · simp only [h2]
        exact set_replicate_zero n p.1
      · simp only [TraditionalCounter_increment, hl, h3, U32]
        omega
      · simp only [U32]
        omega
    · rw [increment_eq_of_noflush sc p.1 p.2 hc]
      have hl0 : incLocalVal sc p.1 p.2 = 0 := by
        rw [h1] at hc
        omega
      apply ih n
      · exact h1
      · simp only [hl0, h2]
        exact set_replicate_zero n p.1
      · rw [hl0] at hl
        simp only [TraditionalCounter_increment, h3, U32]
        simp only [U32] at hl h4
        omega
      · exact h4

/-! ### Claim theorems -/

/-- C1 counterexample: on a SloppyCounter with threshold 5 and one slot, two
increments whose amounts total 2^32 leave `global + Σ local = 0`, not the
exact sum 2^32 — uint32 wraparound breaks exact accounting. -/
theorem sloppy_accounting_counterexample :
    ¬ ((ApproximateCounter_run (ApproximateCounter_create 5 1)
          (incsToOps [(0, 2147483649), (0, 2147483647)])).mGlobal +
        (ApproximateCounter_run (ApproximateCounter_create 5 1)
          (incsToOps [(0, 2147483649), (0, 2147483647)])).mLocal.sum =
       sumSinceReset (incsToOps [(0, 2147483649), (0, 2147483647)])) := by
  decide

/-- C1 (amended): for every sequence of increment/flush/reset calls on a
SloppyCounter whose increments name valid slots, after the sequence
`global + Σ local[i]` equals the exact sum of all `amount` arguments passed to
increment since the last reset (or creation) modulo 2^32, and equals it
exactly whenever that sum is below 2^32. -/
theorem sloppy_accounting_invariant (iThreshold iThreads : Nat) (ops : List CounterOp)
    (hok : ∀ op ∈ ops, CounterOp.slotOkB iThreads op = true) :
    ((ApproximateCounter_run (ApproximateCounter_create iThreshold iThreads) ops).mGlobal +
        (ApproximateCounter_run (ApproximateCounter_create iThreshold iThreads) ops).mLocal.sum) %
        U32 = sumSinceReset ops % U32 ∧
    (sumSinceReset ops < U32 →
      (ApproximateCounter_run (ApproximateCounter_create iThreshold iThreads) ops).mGlobal +
          (ApproximateCounter_run (ApproximateCounter_create iThreshold iThreads) ops).mLocal.sum =
        sumSinceReset ops) := by
  have hinv := sloppyInv_run ops (ApproximateCounter_create iThreshold iThreads) 0
    (sloppyInv_create iThreshold iThreads) hok
  obtain ⟨_, hmod, _, hexact, _, _⟩ := hinv
  exact ⟨hmod, hexact⟩

/-- C1 witness: a concrete mixed sequence on a two-slot counter. -/
theorem sloppy_accounting_invariant_witness :
    (∀ op ∈ ([CounterOp.increment 0 3, CounterOp.flush 0, CounterOp.increment 1 4,
        CounterOp.increment 0 12] : List CounterOp), CounterOp.slotOkB 2 op = true) ∧
    ((ApproximateCounter_run (ApproximateCounter_create 10 2)
          [CounterOp.increment 0 3, CounterOp.flush 0, CounterOp.increment 1 4,
            CounterOp.increment 0 12]).mGlobal +
        (ApproximateCounter_run (ApproximateCounter_create 10 2)
          [CounterOp.increment 0 3, CounterOp.flush 0, CounterOp.increment 1 4,
            CounterOp.increment 0 12]).mLocal.sum =
      sumSinceReset [CounterOp.increment 0 3, CounterOp.flush 0, CounterOp.increment 1 4,
        CounterOp.increment 0 12]) :=
  ⟨by decide,
   (sloppy_accounting_invariant 10 2
      [CounterOp.increment 0 3, CounterOp.flush 0, CounterOp.increment 1 4,
        CounterOp.increment 0 12] (by decide)).2 (by decide)⟩

/-- C2: increment on a valid slot sets `local[slot]` to the uint32 sum of its
old value and `amount`; exactly when that new value reaches the threshold it
is instead added (uint32) to `global` and the slot is zeroed; `global` is
otherwise unchanged, every other slot is unchanged, and the instance's
parameters are unchanged. -/
theorem approx_increment_spec (c : tApproximateCounter_instance) (t a : Nat)
    (hlen : c.mLocal.length = c.mThreads) (ht : t < c.mThreads) :
    ((ApproximateCounter_increment c t a).mLocal.getD t 0 =
        if c.mThreshold ≤ incLocalVal c t a then 0 else incLocalVal c t a) ∧
    ((ApproximateCounter_increment c t a).mGlobal =
        if c.mThreshold ≤ incLocalVal c t a then (c.mGlobal + incLocalVal c t a) % U32
        else c.mGlobal) ∧
    (∀ j, j ≠ t →
      (ApproximateCounter_increment c t a).mLocal.getD j 0 = c.mLocal.getD j 0) ∧
    (ApproximateCounter_increment c t a).mThreads = c.mThreads ∧
    (ApproximateCounter_increment c t a).mThreshold = c.mThreshold ∧
    (ApproximateCounter_increment c t a).mLocal.length = c.mLocal.length := by
  have htl : t < c.mLocal.length := by rw [hlen]; exact ht
  by_cases hc : c.mThreshold ≤ incLocalVal c t a
  · rw [increment_eq_of_flush c t a hc]
    refine ⟨?_, ?_, ?_, rfl, rfl, ?_⟩
    · rw [if_pos hc]
      exact getD_set_self c.mLocal t 0 htl
    · rw [if_pos hc]
    · intro j hj
      exact getD_set_other c.mLocal t j 0 hj
    · exact List.length_set c.mLocal t 0
  · rw [increment_eq_of_noflush c t a hc]
    refine ⟨?_, ?_, ?_, rfl, rfl, ?_⟩
    · rw [if_neg hc]
      exact getD_set_self c.mLocal t (incLocalVal c t a) htl
    · rw [if_neg hc]
    · intro j hj
      exact getD_set_other c.mLocal t j (incLocalVal c t a) hj
    · exact List.length_set c.mLocal t (incLocalVal c t a)

/-- C2 witness: an increment below threshold on slot 0 of a fresh counter. -/
theorem approx_increment_spec_witness :
    (ApproximateCounter_create 10 2).mLocal.length = (ApproximateCounter_create 10 2).mThreads ∧
    0 < (ApproximateCounter_create 10 2).mThreads ∧
    (ApproximateCounter_increment (ApproximateCounter_create 10 2) 0 5).mLocal.getD 0 0 =
      if (ApproximateCounter_create 10 2).mThreshold ≤
          incLocalVal (ApproximateCounter_create 10 2) 0 5 then 0
      else incLocalVal (ApproximateCounter_create 10 2) 0 5 :=
  ⟨by decide, by decide,
   (approx_increment_spec (ApproximateCounter_create 10 2) 0 5 (by decide) (by decide)).1⟩

/-- C3 counterexample: with threshold 4294967295 and one slot, two increments
of 2^31 wrap the local count to 0 without ever flushing, so
`true_total - get() = 2^32`, which is not below `threads * threshold`. -/
theorem bounded_staleness_counterexample :
    ¬ (sumAmounts [(0, 2147483648), (0, 2147483648)] -
        ApproximateCounter_get (ApproximateCounter_run
          (ApproximateCounter_create 4294967295 1)
          (incsToOps [(0, 2147483648), (0, 2147483648)])) <
       1 * 4294967295) := by
  decide

/-- C3 (amended): for a SloppyCounter with threshold and thread count at least
1, after any increment-only sequence on valid slots whose exact total is below
2^32, `true_total - get() < threads * threshold`; moreover, with no overflow
restriction, every slot's un-flushed local value is at most `threshold - 1`
after any increment sequence. -/
theorem bounded_staleness (iThreshold iThreads : Nat) (incs : List (Nat × Nat))
    (hth : 1 ≤ iThreshold) (hn : 1 ≤ iThreads)
    (hok : ∀ p ∈ incs, p.1 < iThreads) :
    (sumAmounts incs < U32 →
      sumAmounts incs -
          ApproximateCounter_get (ApproximateCounter_run
            (ApproximateCounter_create iThreshold iThreads) (incsToOps incs)) <
        iThreads * iThreshold) ∧
    (∀ x ∈ (ApproximateCounter_run (ApproximateCounter_create iThreshold iThreads)
        (incsToOps incs)).mLocal, x ≤ iThreshold - 1) := by
  have hokops := slotOkB_incsToOps iThreads incs hok
  have hinv := sloppyInv_run (incsToOps incs)
    (ApproximateCounter_create iThreshold iThreads) 0
    (sloppyInv_create iThreshold iThreads) hokops
  have hsum2 : sumSinceResetFrom 0 (incsToOps incs) = sumAmounts incs :=
    sumSinceReset_incsToOps incs
  rw [hsum2] at hinv
  obtain ⟨hlen, _, hbound, hexact, _, _⟩ := hinv
  have hthr : (ApproximateCounter_run (ApproximateCounter_create iThreshold iThreads)
      (incsToOps incs)).mThreshold = iThreshold :=
    run_mThreshold (incsToOps incs) (ApproximateCounter_create iThreshold iThreads)
  have hthreads : (ApproximateCounter_run (ApproximateCounter_create iThreshold iThreads)
      (incsToOps incs)).mThreads = iThreads :=
    run_mThreads (incsToOps incs) (ApproximateCounter_create iThreshold iThreads)
  rw [hthr] at hbound
  rw [hthreads] at hlen
  refine ⟨?_, hbound⟩
  intro hsum
  have he := hexact hsum
  have hS : (ApproximateCounter_run (ApproximateCounter_create iThreshold iThreads)
      (incsToOps incs)).mLocal.sum ≤ iThreads * (iThreshold - 1) := by
    have h1 := sum_le_length_mul _ (iThreshold - 1) hbound
    rw [hlen] at h1
    exact h1
  obtain ⟨u, rfl⟩ : ∃ u, iThreshold = u + 1 := ⟨iThreshold - 1, by omega⟩
  have hmul : iThreads * (u + 1) = iThreads * u + iThreads := by ring
  have hu : u + 1 - 1 = u := by omega
  rw [hu] at hS
  rw [hmul]
  unfold ApproximateCounter_get
  generalize hA : iThreads * u = A at *
  omega

/-- C3 witness: threshold 10, two slots, both slots driven exactly to the
boundary value `threshold - 1 = 9`; staleness is 18 < 2 * 10. -/
theorem bounded_staleness_witness :
    (1 ≤ 10 ∧ 1 ≤ 2 ∧ (∀ p ∈ ([(0, 9), (1, 9)] : List (Nat × Nat)), p.1 < 2) ∧
      sumAmounts [(0, 9), (1, 9)] < U32) ∧
    (sumAmounts [(0, 9), (1, 9)] -
        ApproximateCounter_get (ApproximateCounter_run (ApproximateCounter_create 10 2)
          (incsToOps [(0, 9), (1, 9)])) <
      2 * 10) ∧
    (∀ x ∈ (ApproximateCounter_run (ApproximateCounter_create 10 2)
        (incsToOps [(0, 9), (1, 9)])).mLocal, x ≤ 10 - 1) :=
  ⟨⟨by decide, by decide, by decide, by decide⟩,
   (bounded_staleness 10 2 [(0, 9), (1, 9)] (by decide) (by decide) (by decide)).1
     (by decide),
   (bounded_staleness 10 2 [(0, 9), (1, 9)] (by decide) (by decide) (by decide)).2⟩

/-- C4 counterexample: with threshold 2 and one slot, two increments of 2^31
each flush with wraparound, leaving `get() = 0` while the true total is 2^32 —
`get` is not within `threads * threshold` of the true total. -/
theorem approx_get_counterexample :
    ¬ (sumAmounts [(0, 2147483648), (0, 2147483648)] -
        ApproximateCounter_get (ApproximateCounter_run (ApproximateCounter_create 2 1)
          (incsToOps [(0, 2147483648), (0, 2147483648)])) ≤
       (ApproximateCounter_run (ApproximateCounter_create 2 1)
          (incsToOps [(0, 2147483648), (0, 2147483648)])).mThreads *
         (ApproximateCounter_run (ApproximateCounter_create 2 1)
            (incsToOps [(0, 2147483648), (0, 2147483648)])).mThreshold) := by
  decide

/-- C4 (amended): `get` returns exactly the `global` field — the returned value
ignores the local slots entirely and the instance state is unmodified; and for
every state reached by valid calls whose exact running total is below 2^32,
`get` is a lower bound on the true total, within `threads * threshold` of it. -/
theorem approx_get_spec :
    (∀ (c : tApproximateCounter_instance) (oCount : Nat),
      ApproximateCounter_get_c (some c) oCount = (some c, c.mGlobal)) ∧
    (∀ (c : tApproximateCounter_instance) (l2 : List Nat),
      ApproximateCounter_get { c with mLocal := l2 } = ApproximateCounter_get c) ∧
    (∀ (iThreshold iThreads : Nat) (ops : List CounterOp),
      (∀ op ∈ ops, CounterOp.slotOkB iThreads op = true) →
      sumSinceReset ops < U32 →
      ApproximateCounter_get (ApproximateCounter_run
          (ApproximateCounter_create iThreshold iThreads) ops) ≤ sumSinceReset ops ∧
      sumSinceReset ops -
          ApproximateCounter_get (ApproximateCounter_run
            (ApproximateCounter_create iThreshold iThreads) ops) ≤
        iThreads * iThreshold) := by
  refine ⟨fun c oCount => rfl, fun c l2 => rfl, ?_⟩
  intro iThreshold iThreads ops hok hsum
  have hinv := sloppyInv_run ops (ApproximateCounter_create iThreshold iThreads) 0
    (sloppyInv_create iThreshold iThreads) hok
  obtain ⟨hlen, _, hbound, hexact, _, _⟩ := hinv
  have hthr : (ApproximateCounter_run (ApproximateCounter_create iThreshold iThreads)
      ops).mThreshold = iThreshold :=
    run_mThreshold ops (ApproximateCounter_create iThreshold iThreads)
  have hthreads : (ApproximateCounter_run (ApproximateCounter_create iThreshold iThreads)
      ops).mThreads = iThreads :=
    run_mThreads ops (ApproximateCounter_create iThreshold iThreads)
  rw [hthr] at hbound
  rw [hthreads] at hlen
  have he := hexact hsum
  have hS : (ApproximateCounter_run (ApproximateCounter_create iThreshold iThreads)
      ops).mLocal.sum ≤ iThreads * (iThreshold - 1) := by
    have h1 := sum_le_length_mul _ (iThreshold - 1) hbound
    rw [hlen] at h1
    exact h1
  have hSth : iThreads * (iThreshold - 1) ≤ iThreads * iThreshold :=
    Nat.mul_le_mul_left iThreads (by omega)
  unfold ApproximateCounter_get
  unfold sumSinceReset at hsum ⊢
  generalize hB : iThreads * iThreshold = B at *
  generalize hA : iThreads * (iThreshold - 1) = A at *
  omega

/-- C4 witness: the staleness bound at a concrete reachable state. -/
theorem approx_get_spec_witness :
    ((∀ op ∈ ([CounterOp.increment 0 7] : List CounterOp),
        CounterOp.slotOkB 2 op = true) ∧
      sumSinceReset [CounterOp.increment 0 7] < U32) ∧
    ApproximateCounter_get (ApproximateCounter_run (ApproximateCounter_create 10 2)
        [CounterOp.increment 0 7]) ≤ sumSinceReset [CounterOp.increment 0 7] :=
  ⟨⟨by decide, by decide⟩,
   ((approx_get_spec.2.2) 10 2 [CounterOp.increment 0 7] (by decide) (by decide)).1⟩

/-- C5 counterexample: two increments of 2^31 on an ExactCounter wrap the
uint32 global to 0, not the exact sum 2^32. -/
theorem exact_counter_get_counterexample :
    ¬ (TraditionalCounter_get (TraditionalCounter_run TraditionalCounter_create
          (incsToOps [(0, 2147483648), (1, 2147483648)])) =
       sumSinceReset (incsToOps [(0, 2147483648), (1, 2147483648)])) := by
  decide

/-- C5 (amended): after every sequence of contract calls on an ExactCounter,
`get()` equals the exact sum of increment amounts since the last reset modulo
2^32, and exactly whenever that sum is below 2^32; the slot argument of
increment has no effect on the result. -/
theorem exact_counter_get (ops : List CounterOp) :
    TraditionalCounter_get (TraditionalCounter_run TraditionalCounter_create ops) % U32 =
        sumSinceReset ops % U32 ∧
    (sumSinceReset ops < U32 →
      TraditionalCounter_get (TraditionalCounter_run TraditionalCounter_create ops) =
        sumSinceReset ops) ∧
    (∀ (c : tTraditionalCounter_instance) (t t2 a : Nat),
      TraditionalCounter_increment c t a = TraditionalCounter_increment c t2 a) := by
  have hinv := exactInv_run ops TraditionalCounter_create 0 exactInv_create
  obtain ⟨hmod, hexact, _⟩ := hinv
  exact ⟨hmod, hexact, fun c t t2 a => rfl⟩

/-- C5 witness: a concrete sequence with a reset and slot-varying increments. -/
theorem exact_counter_get_witness :
    sumSinceReset [CounterOp.increment 0 5, CounterOp.reset, CounterOp.increment 7 3,
        CounterOp.flush 1, CounterOp.increment 2 4] < U32 ∧
    TraditionalCounter_get (TraditionalCounter_run TraditionalCounter_create
        [CounterOp.increment 0 5, CounterOp.reset, CounterOp.increment 7 3,
          CounterOp.flush 1, CounterOp.increment 2 4]) =
      sumSinceReset [CounterOp.increment 0 5, CounterOp.reset, CounterOp.increment 7 3,
        CounterOp.flush 1, CounterOp.increment 2 4] :=
  ⟨by decide,
   (exact_counter_get [CounterOp.increment 0 5, CounterOp.reset, CounterOp.increment 7 3,
      CounterOp.flush 1, CounterOp.increment 2 4]).2.1 (by decide)⟩

/-- C6: the spec's concrete scenario on a SloppyCounter with threshold 10 and
2 slots: nine unit increments on slot 0 leave `local[0] = 9, global = 0`; ten
further unit increments on slot 1 flush at the tenth (`local[1] = 0,
global = 10`); `get()` returns 10; after flushing slot 0, `get()` returns 19. -/
theorem concrete_scenario_threshold_ten :
    (ApproximateCounter_run (ApproximateCounter_create 10 2)
        (incsToOps (List.replicate 9 (0, 1)))).mLocal.getD 0 0 = 9 ∧
    (ApproximateCounter_run (ApproximateCounter_create 10 2)
        (incsToOps (List.replicate 9 (0, 1)))).mGlobal = 0 ∧
    (ApproximateCounter_run (ApproximateCounter_create 10 2)
        (incsToOps (List.replicate 9 (0, 1) ++ List.replicate 10 (1, 1)))).mLocal.getD 1 0 = 0 ∧
    (ApproximateCounter_run (ApproximateCounter_create 10 2)
        (incsToOps (List.replicate 9 (0, 1) ++ List.replicate 10 (1, 1)))).mGlobal = 10 ∧
    ApproximateCounter_get (ApproximateCounter_run (ApproximateCounter_create 10 2)
        (incsToOps (List.replicate 9 (0, 1) ++ List.replicate 10 (1, 1)))) = 10 ∧
    ApproximateCounter_get (ApproximateCounter_flush
        (ApproximateCounter_run (ApproximateCounter_create 10 2)
          (incsToOps (List.replicate 9 (0, 1) ++ List.replicate 10 (1, 1)))) 0) = 19 := by
  decide

/-- C7 counterexample: with threshold 1, after two increments of 2^31 the
value of `get()` is 0 (uint32 wraparound), not the exact running total 2^32 —
so even the degenerate counter does not always report the exact total. -/
theorem threshold_one_counterexample :
    ¬ (ApproximateCounter_get (ApproximateCounter_run (ApproximateCounter_create 1 1)
          (incsToOps [(0, 2147483648), (0, 2147483648)])) =
       sumAmounts [(0, 2147483648), (0, 2147483648)]) := by
  decide

/-- C7 (amended): a SloppyCounter with threshold 1 is observationally
equivalent to an ExactCounter: after every increment-only sequence, `get()`
equals ExactCounter's `get()` on the same sequence (both reduce the running
total modulo 2^32, and agree exactly whenever it is below 2^32), and every
local slot is 0 — each increment flushes its slot immediately. -/
theorem threshold_one_degenerates (iThreads : Nat) (incs : List (Nat × Nat)) :
    ApproximateCounter_get (ApproximateCounter_run (ApproximateCounter_create 1 iThreads)
        (incsToOps incs)) =
      TraditionalCounter_get (TraditionalCounter_run TraditionalCounter_create
        (incsToOps incs)) ∧
    (ApproximateCounter_run (ApproximateCounter_create 1 iThreads)
        (incsToOps incs)).mLocal = List.replicate iThreads 0 := by
  have h := threshold_one_run incs iThreads (ApproximateCounter_create 1 iThreads)
    TraditionalCounter_create rfl rfl rfl (by simp [ApproximateCounter_create, U32])
  exact h

/-- C8 counterexample: ExactCounter increments totalling 2^32 — far below
2^64 — wrap the count to 0: the counts are uint32, not u64. -/
theorem counts_are_uint32_counterexample :
    ¬ (TraditionalCounter_get (TraditionalCounter_run TraditionalCounter_create
          (incsToOps [(0, 4294967295), (0, 1)])) =
       sumSinceReset (incsToOps [(0, 4294967295), (0, 1)])) ∧
    sumSinceReset (incsToOps [(0, 4294967295), (0, 1)]) < 18446744073709551616 := by
  decide

/-- C8 (amended): all counter counts are unsigned 32-bit (`uint32_t`): after
any sequence of valid calls every count of both variants lies below 2^32, and
sums of increments accumulate exactly only for totals below 2^32. -/
theorem counts_are_uint32 (iThreshold iThreads : Nat) (ops : List CounterOp)
    (hok : ∀ op ∈ ops, CounterOp.slotOkB iThreads op = true) :
    (ApproximateCounter_run (ApproximateCounter_create iThreshold iThreads) ops).mGlobal <
        U32 ∧
    (∀ x ∈ (ApproximateCounter_run (ApproximateCounter_create iThreshold iThreads)
        ops).mLocal, x < U32) ∧
    (TraditionalCounter_run TraditionalCounter_create ops).mGlobal < U32 ∧
    (sumSinceReset ops < U32 →
      (TraditionalCounter_run TraditionalCounter_create ops).mGlobal = sumSinceReset ops) := by
  have hinv := sloppyInv_run ops (ApproximateCounter_create iThreshold iThreads) 0
    (sloppyInv_create iThreshold iThreads) hok
  obtain ⟨_, _, _, _, hg, hloc⟩ := hinv
  have hinv2 := exactInv_run ops TraditionalCounter_create 0 exactInv_create
  obtain ⟨_, hexact2, hg2⟩ := hinv2
  exact ⟨hg, hloc, hg2, hexact2⟩

/-- C8 witness: uint32 range of a concrete run. -/
theorem counts_are_uint32_witness :
    (∀ op ∈ ([CounterOp.increment 0 4294967295, CounterOp.increment 0 2] : List CounterOp),
      CounterOp.slotOkB 1 op = true) ∧
    (ApproximateCounter_run (ApproximateCounter_create 3 1)
        [CounterOp.increment 0 4294967295, CounterOp.increment 0 2]).mGlobal < U32 :=
  ⟨by decide,
   (counts_are_uint32 3 1 [CounterOp.increment 0 4294967295, CounterOp.increment 0 2]
      (by decide)).1⟩

/-- C9 counterexample: the reset trace of a default-parameter SloppyCounter
acquires local locks while the global lock is held, and releases local locks
while the global lock is held — reset does not follow the local-first,
local-released-last ordering the other operations use. -/
theorem lock_ordering_counterexample :
    acquiresLocalWhileGlobalHeld false
        (ApproximateCounter_resetTrace (ApproximateCounter_create 1024 8)) = true ∧
    releasesLocalWhileGlobalHeld false
        (ApproximateCounter_resetTrace (ApproximateCounter_create 1024 8)) = true := by
  decide

/-- C9 (amended): increment and flush acquire the slot's local lock first and
release it last (neither acquires nor releases a local lock with the global
lock held); reset uses the opposite fixed order — its first event takes the
global lock, its last event releases the global lock, and every local lock is
acquired while the global lock is held. -/
theorem lock_ordering_discipline (c : tApproximateCounter_instance) (t a : Nat) :
    localFirstDiscipline (ApproximateCounter_incrementTrace c t a) ∧
    localFirstDiscipline (ApproximateCounter_flushTrace t) ∧
    acquiresLocalWhileGlobalFree false (ApproximateCounter_resetTrace c) = false ∧
    (ApproximateCounter_resetTrace c).head? = some (LockEv.acq LockRef.glock) ∧
    (ApproximateCounter_resetTrace c).getLast? = some (LockEv.rel LockRef.glock) :=
  ⟨incrementTrace_localFirst c t a, flushTrace_localFirst t, resetTrace_globalFirst c,
   resetTrace_head c, resetTrace_last c⟩

/-- C10: every operation of both variants called on a null instance returns
immediately without touching any state: destroy is an idempotent no-op, reset,
flush and increment leave the null instance null, and get leaves the caller's
output variable unwritten. -/
theorem null_instance_noop (t a oCount : Nat)
    (x : Option tApproximateCounter_instance)
    (y : Option tTraditionalCounter_instance) :
    ApproximateCounter_destroy_c none = none ∧
    ApproximateCounter_destroy_c (ApproximateCounter_destroy_c x) =
        ApproximateCounter_destroy_c x ∧
    ApproximateCounter_reset_c none = none ∧
    ApproximateCounter_flush_c none t = none ∧
    ApproximateCounter_increment_c none t a = none ∧
    ApproximateCounter_get_c none oCount = (none, oCount) ∧
    TraditionalCounter_destroy_c none = none ∧
    TraditionalCounter_destroy_c (TraditionalCounter_destroy_c y) =
        TraditionalCounter_destroy_c y ∧
    TraditionalCounter_reset_c none = none ∧
    TraditionalCounter_flush_c none t = none ∧
    TraditionalCounter_increment_c none t a = none ∧
    TraditionalCounter_get_c none oCount = (none, oCount) := by
  refine ⟨rfl, ?_, rfl, rfl, rfl, rfl, rfl, ?_, rfl, rfl, rfl, rfl⟩
  · cases x <;> rfl
  · cases y <;> rfl
